import Mathlib

/-!
Shallow embedding of the novelty-driven robot controller (repository
`pointlander/as`) for checking its natural-language specification.

Floating-point values are idealised as rationals (`ℚ`).  The adaptive
compressor (`github.com/pointlander/compress`, an external module) and the
FFT (`github.com/mjibson/go-dsp`, external) are abstracted as function
parameters; everything translated here comes from the repository's own
source files (`main.go`, `markovmind.go`, `ksensor.go`, `simulation.go` and
the unnamed historical variants).

Where IEEE-754 special values decide a claim (the entropy sensor's
`0 * log2(0)`), a small `GoFloat` type with Go's `float64` special-value
semantics is used instead of plain `ℚ`.
-/

set_option autoImplicit false

namespace AS

/-- `S = 1.0 - 1e-300`, the softmax scaling constant from `main.go`. -/
def SConst : ℚ := 1 - 1 / 10 ^ 300

/-- Go `math.Round`: round half away from zero. -/
def goRound (q : ℚ) : ℤ :=
  if 0 ≤ q then ⌊q + 1 / 2⌋ else -⌊-q + 1 / 2⌋

/-- Go `byte(math.Round(e))`: round to nearest, then convert to a byte.
Negative values are clamped at 0 by `Int.toNat` (they do not occur on the
program's inputs, which are non-negative scores). -/
def quantByte (q : ℚ) : Fin 256 :=
  ⟨(goRound q).toNat % 256, Nat.mod_lt _ (by norm_num)⟩

/-- Go `byte(q)` for a non-negative float `q`: truncate toward zero, then
convert to a byte. -/
def byteOf (q : ℚ) : ℕ :=
  (⌊q⌋).toNat % 256

/-- The `softmax` function exactly as written in `main.go` lines 100-120
(identical in the historical variant).  `E` abstracts `math.Exp`.  Note the
second loop of the source divides the *raw* temperature-scaled value
`values[j]/t` by the sum of exponentials, not the exponential itself:

    for j, value := range values {
        value /= t
        output[j] = value / sum
    }

so the translation maps `v` to `(v / t) / sum`. -/
def softmax (E : ℚ → ℚ) (values : List ℚ) (t : ℚ) : List ℚ :=
  let m := values.foldl (fun acc v => if v > acc then v else acc) 0
  let s := m * SConst
  let sum := (values.map (fun v => E (v / t - s))).sum
  values.map (fun v => (v / t) / sum)

/-!  ## Inverse-CDF sampling loops

All three action samplers walk the normalized vector accumulating a running
sum and stop at the first index whose running sum exceeds the drawn value:

    sum, action, selected := 0.0, 0, rng.Float64()
    for i, value := range normalized {
        sum += value
        if sum > selected {
            action = i
            break
        }
    }

`KMind.Step` (main.go:171-179) and the three-byte `MarkovMind.Step`
(markovmind.go:42-51) initialise the result to `0`, so `0` is the value
kept when no partial sum exceeds the draw.  The two-byte `MarkovMind.Step`
(main.go:215-223) assigns into `m.Action`, so that variant keeps the
previous step's action instead. -/

/-- The shared loop body: walk the remaining values with running sum `s`
and next index `i`; return the first index whose running sum exceeds
`sel`, or `none`. -/
def sampleAux (sel : ℚ) : List ℚ → ℚ → ℕ → Option ℕ
  | [], _, _ => none
  | v :: rest, s, i => if s + v > sel then some i else sampleAux sel rest (s + v) (i + 1)

/-- Sampler of `KMind.Step` and the three-byte `MarkovMind.Step`:
result defaults to index `0`. -/
def sampleIdx (normalized : List ℚ) (sel : ℚ) : ℕ :=
  (sampleAux sel normalized 0 0).getD 0

/-- Sampler of the two-byte `MarkovMind.Step` in `main.go`: the previous
action is kept when no partial sum exceeds the draw. -/
def sampleIdxFrom (prev : ℕ) (normalized : List ℚ) (sel : ℚ) : ℕ :=
  (sampleAux sel normalized 0 0).getD prev

/-- Cumulative sums of a vector continuing from a running sum `s`. -/
def cumFrom (s : ℚ) : List ℚ → List ℚ
  | [] => []
  | v :: rest => (s + v) :: cumFrom (s + v) rest

/-- The list of cumulative sums `[v₀, v₀+v₁, …]` of a vector. -/
def cumList (ns : List ℚ) : List ℚ :=
  cumFrom 0 ns

/-!  ## Go float64 special values

`ESensor.Sense` (main.go:244-282) computes `value * math.Log2(value)`
without guarding `value = 0`.  In Go, `math.Log2(0) = -Inf` and
`0 * (-Inf) = NaN`, and `0/0 = NaN`.  `GoFloat` captures exactly the
special-value behaviour needed; finite values are idealised rationals and
`L` abstracts the (real-valued) base-2 logarithm on positive arguments. -/

inductive GoFloat where
  | fin : ℚ → GoFloat
  | pinf : GoFloat
  | ninf : GoFloat
  | nan : GoFloat
deriving DecidableEq, Repr

/-- Go division `m / sum` of two non-negative finite floats. -/
def goDiv (m sum : ℚ) : GoFloat :=
  if sum ≠ 0 then .fin (m / sum)
  else if m = 0 then .nan
  else .pinf

/-- Go `math.Log2` on a (non-negative input) float. -/
def goLog2 (L : ℚ → ℚ) : GoFloat → GoFloat
  | .fin q => if q > 0 then .fin (L q) else if q = 0 then .ninf else .nan
  | .pinf => .pinf
  | .ninf => .nan
  | .nan => .nan

/-- Go float multiplication restricted to the shapes arising here. -/
def goMul : GoFloat → GoFloat → GoFloat
  | .fin a, .fin b => .fin (a * b)
  | .fin a, .pinf => if a > 0 then .pinf else if a < 0 then .ninf else .nan
  | .fin a, .ninf => if a > 0 then .ninf else if a < 0 then .pinf else .nan
  | .pinf, .fin b => if b > 0 then .pinf else if b < 0 then .ninf else .nan
  | .ninf, .fin b => if b > 0 then .ninf else if b < 0 then .pinf else .nan
  | .pinf, .pinf => .pinf
  | .pinf, .ninf => .ninf
  | .ninf, .pinf => .ninf
  | .ninf, .ninf => .pinf
  | _, _ => .nan

/-- Go float addition restricted to the shapes arising here. -/
def goAdd : GoFloat → GoFloat → GoFloat
  | .fin a, .fin b => .fin (a + b)
  | .fin _, .pinf => .pinf
  | .fin _, .ninf => .ninf
  | .pinf, .fin _ => .pinf
  | .ninf, .fin _ => .ninf
  | .pinf, .pinf => .pinf
  | .ninf, .ninf => .ninf
  | _, _ => .nan

/-- Go float negation. -/
def goNeg : GoFloat → GoFloat
  | .fin a => .fin (-a)
  | .pinf => .ninf
  | .ninf => .pinf
  | .nan => .nan

/-- The entropy reduction of `ESensor.Sense` (main.go:264-281), starting
from the flattened list of spectrum magnitudes `|freq(i,x,y)|` in
`(depth, x, y)` order:

    sum := Σ |freq|
    entropy := Σ (|freq|/sum) * log2(|freq|/sum)   -- no zero guard
    return -entropy
-/
def eSenseScore (L : ℚ → ℚ) (mags : List ℚ) : GoFloat :=
  let sum := mags.sum
  let terms := mags.map (fun m => goMul (goDiv m sum) (goLog2 L (goDiv m sum)))
  goNeg (terms.foldl goAdd (.fin 0))

/-!  ## KMind candidate trials (main.go:154-167)

    for a := 0; a < int(ActionCount); a++ {
        pre := byte(a)
        for i, value := range k.ActionBuffer[:len(k.ActionBuffer)-1] {
            k.ActionBuffer[i], pre = pre, value
        }
        ... compress the mutated buffer ...
    }

The inner loop runs over indices `0 … len-2`.  After it, position `0`
holds `a`, positions `1 … len-2` hold the old bytes `0 … len-3`, and the
*final* position `len-1` keeps its old byte untouched (the old byte at
`len-2` is the one dropped).  The buffer is never restored between
candidates. -/

/-- One candidate trial's effect on `k.ActionBuffer`. -/
def trialShift (a : ℕ) (buf : List ℕ) : List ℕ :=
  if buf.length ≤ 1 then buf
  else a :: (buf.take (buf.length - 2) ++ buf.drop (buf.length - 1))

/-- What the claim's parenthetical describes: prepend `a`, shift every
other byte right by one and drop the oldest (the last byte). -/
def trialShiftSpec (a : ℕ) (buf : List ℕ) : List ℕ :=
  a :: buf.dropLast

/-- The candidate-evaluation loop over a list of candidate actions,
returning the buffer state each candidate's compression call sees (the
state right after its own shift) together with the final buffer. -/
def candLoop (buf : List ℕ) : List ℕ → List (List ℕ) × List ℕ
  | [] => ([], buf)
  | a :: rest =>
    let b := trialShift a buf
    let r := candLoop b rest
    (b :: r.1, r.2)

/-- The loop of `KMind.Step`, whose candidates are `0 … n-1`. -/
def candTrials (n : ℕ) (buf : List ℕ) : List (List ℕ) × List ℕ :=
  candLoop buf (List.range n)

/-!  ## Spectrum quantization (KSensor.Sense and Simulation)

`KSensor.Sense` in `main.go` (lines 318-331) writes one byte per spectrum
element into a preallocated array through an explicit cursor:

    state, index := make([]byte, FFTDepth*dx*dy), 0
    for i ... for x ... for y ... {
        value := cmplx.Abs(freq.Value(...)) / sum
        state[index] = byte(255 * value)
        index++
    }

The two-channel variant in `ksensor.go` writes a magnitude byte and a
phase byte per element (`index++` twice).  The copy inside `Simulation`
(simulation.go:90-101) is identical except that it never increments
`index`.  All three are modelled as folds over the flattened `(depth, x,
y)`-ordered element list, writing through a cursor into a zero-filled
list of the preallocated length. -/

/-- Write the bytes `ws` at consecutive positions starting at the cursor. -/
def writeAll (ws : List ℕ) (acc : List ℕ × ℕ) : List ℕ × ℕ :=
  ws.foldl (fun a b => (a.1.set a.2 b, a.2 + 1)) acc

/-- Cursor-driven quantization: for each element emit its byte(s) and
advance, into a zero-filled array of length `size`. -/
def quantFold {α : Type} (f : α → List ℕ) (xs : List α) (size : ℕ) : List ℕ :=
  (xs.foldl (fun a x => writeAll (f x) a) (List.replicate size 0, 0)).1

/-- `KSensor.Sense` byte sequence (`main.go` variant): magnitudes only. -/
def kSensorBytes (mags : List ℚ) : List ℕ :=
  quantFold (fun m => [byteOf (255 * (m / mags.sum))]) mags mags.length

/-- `KSensor.Sense` byte sequence (`ksensor.go` variant): a magnitude byte
and a phase byte per element.  Each element is a pair of the magnitude
`|v|` and the shifted phase `Phase(v) + π`; `sumPhase` is the sum of the
shifted phases, exactly as in the source. -/
def kSensor2Bytes (vals : List (ℚ × ℚ)) : List ℕ :=
  quantFold
    (fun v => [byteOf (255 * v.1 / (vals.map Prod.fst).sum),
               byteOf (255 * v.2 / (vals.map Prod.snd).sum)])
    vals (2 * vals.length)

/-- The quantization loop inside `Simulation` (simulation.go:90-101): the
source never increments `index`, so every byte is written at position 0
of the preallocated array. -/
def simBytes (mags : List ℚ) : List ℕ :=
  mags.foldl (fun a m => a.set 0 (byteOf (255 * (m / mags.sum))))
    (List.replicate mags.length 0)

/-- The compression score `255 * compressed_length / sequence_length`
common to the compression-mode sensors; `cl` abstracts the external
compressor's output length (`compress.Mark1Compress1`). -/
def kSenseScore (cl : List ℕ → ℕ) (mags : List ℚ) : ℚ :=
  255 * (cl (kSensorBytes mags) : ℚ) / ((kSensorBytes mags).length : ℚ)

/-!  ## Random-number stream

`rand.New(rand.NewSource(seed))` is a deterministic generator.  It is
modelled as a pair of pre-drawn streams: one of `Float64` values (used by
the minds) and one of small integers (used by `rng.Intn` during grid
initialisation).  Draws consume the head; an exhausted stream yields `0`. -/

structure RNG where
  floats : List ℚ
  ints : List ℕ
deriving DecidableEq, Repr

/-- `rng.Float64()`. -/
def RNG.float (r : RNG) : ℚ × RNG :=
  (r.floats.headD 0, ⟨r.floats.tail, r.ints⟩)

/-- `n` successive `rng.Float64()` draws. -/
def RNG.take : RNG → ℕ → List ℚ × RNG
  | r, 0 => ([], r)
  | r, n + 1 =>
    let p := r.float
    let q := RNG.take p.2 n
    (p.1 :: q.1, q.2)

/-- `rng.Intn(n)`. -/
def RNG.intn (r : RNG) (n : ℕ) : ℕ × RNG :=
  (r.ints.headD 0 % n, ⟨r.floats, r.ints.tail⟩)

/-!  ## MarkovMind (markovmind.go, three-byte context)

The Go `map[Context][]float64` is modelled as an association list with
a lookup and an insert-or-update.  Keys are 3-tuples of bytes. -/

/-- `Context [3]byte` of markovmind.go. -/
abbrev Ctx3 : Type := Fin 256 × Fin 256 × Fin 256

/-- `Context [2]byte` of the two-byte variant in main.go. -/
abbrev Ctx2 : Type := Fin 256 × Fin 256

/-- Association-list model of a Go map: first binding for the key wins. -/
def tlookup {κ β : Type} [DecidableEq κ] : List (κ × β) → κ → Option β
  | [], _ => none
  | kv :: rest, k => if kv.1 = k then some kv.2 else tlookup rest k

/-- `m[k] = v`: replace the binding when present, otherwise insert. -/
def tupdate {κ β : Type} [DecidableEq κ] : List (κ × β) → κ → β → List (κ × β)
  | [], k, v => [(k, v)]
  | kv :: rest, k, v => if kv.1 = k then (k, v) :: rest else kv :: tupdate rest k v

/-- `v.map (· / v.sum)`: the renormalisation loop of `MarkovMind.Step`. -/
def normalizeQ (v : List ℚ) : List ℚ :=
  v.map (fun x => x / v.sum)

/-- `MarkovMind` of markovmind.go. -/
structure MarkovMind where
  Actions : ℕ
  Acts : List ℚ
  State : Ctx3
  Markov : List (Ctx3 × List ℚ)

/-- `NewMarkovMind` (markovmind.go:24-29): empty table, zero context,
`Acts` nil. -/
def NewMarkovMind (actions : ℕ) : MarkovMind :=
  { Actions := actions, Acts := [], State := (0, 0, 0), Markov := [] }

/-- `MarkovMind.Step` (markovmind.go:32-69).  `E` abstracts `math.Exp`
inside `softmax`.  The update loop `actions[a] += 1 - acts[a]` requires
`len(acts) ≥ len(actions)` in Go and is a `zipWith` here; `m.Acts` is
either nil (before the first step) or the vector stored on the previous
step, whose length equals `m.Actions`.  Random draws: `m.Actions` floats
when the context is absent from the table, then one float for the
selection. -/
def MarkovMind.Step (E : ℚ → ℚ) (m : MarkovMind) (entropy : ℚ) (r : RNG) :
    MarkovMind × ℕ × RNG :=
  let s := quantByte entropy
  let acts := m.Acts
  let lk := tlookup m.Markov m.State
  let actions := match lk with
    | some v => v
    | none => (r.take m.Actions).1
  let r1 : RNG := match lk with
    | some _ => r
    | none => (r.take m.Actions).2
  let normalized := softmax E actions 1
  let sp := r1.float
  let act := sampleIdx normalized sp.1
  let actions2 :=
    if acts.isEmpty then actions
    else normalizeQ (List.zipWith (fun v p => v + 1 - p) actions acts)
  ({ Actions := m.Actions
     Acts := actions2
     State := (m.State.2.1, m.State.2.2, s)
     Markov := tupdate m.Markov m.State actions2 },
   act, sp.2)

/-- Fold `MarkovMind.Step` over a list of entropy inputs. -/
def runSteps (E : ℚ → ℚ) (m : MarkovMind) (es : List ℚ) (r : RNG) :
    MarkovMind × RNG :=
  es.foldl (fun acc e =>
    let st := MarkovMind.Step E acc.1 e acc.2
    (st.1, st.2.2)) (m, r)

/-!  ## MarkovMind (main.go, two-byte context variant) -/

/-- The two-byte `MarkovMind` of main.go:189-194. -/
structure MarkovMind2 where
  Actions : ℕ
  Action : ℕ
  State : Ctx2
  Markov : List (Ctx2 × List ℚ)

/-- `NewMarkovMind` (main.go:197-202). -/
def NewMarkovMind2 (actions : ℕ) : MarkovMind2 :=
  { Actions := actions, Action := 0, State := (0, 0), Markov := [] }

/-- `MarkovMind.Step` of main.go:205-236: sampling keeps the previous
`m.Action` when no partial sum exceeds the draw; the update adds `0.1`
to the entry of the action taken on the *previous* step (`action` is
captured before sampling), then renormalises. -/
def MarkovMind2.Step (E : ℚ → ℚ) (m : MarkovMind2) (entropy : ℚ) (r : RNG) :
    MarkovMind2 × ℕ × RNG :=
  let s := quantByte entropy
  let action := m.Action
  let lk := tlookup m.Markov m.State
  let actions := match lk with
    | some v => v
    | none => (r.take m.Actions).1
  let r1 : RNG := match lk with
    | some _ => r
    | none => (r.take m.Actions).2
  let normalized := softmax E actions 1
  let sp := r1.float
  let act := sampleIdxFrom action normalized sp.1
  let actions2 := normalizeQ (actions.set action (actions.getD action 0 + 1 / 10))
  ({ Actions := m.Actions
     Action := act
     State := (m.State.2, s)
     Markov := tupdate m.Markov m.State actions2 },
   act, sp.2)

/-- Fold `MarkovMind2.Step` over a list of entropy inputs. -/
def runSteps2 (E : ℚ → ℚ) (m : MarkovMind2) (es : List ℚ) (r : RNG) :
    MarkovMind2 × RNG :=
  es.foldl (fun acc e =>
    let st := MarkovMind2.Step E acc.1 e acc.2
    (st.1, st.2.2)) (m, r)

/-!  ## Simulation harness (simulation.go)

A 16×16 grayscale grid; pixels are flattened at index `x*16 + y` (the
iteration and access order of the source is `x` outer, `y` inner, always
through `GrayAt(x, y)`/`SetGray(x, y)`, so any fixed bijection is
faithful).  The FFT (`fft.FFTN` of the external go-dsp module) is
abstracted as `fftAbs`, mapping the 8-plane temporal buffer to the
flattened list of spectrum magnitudes; `cl` abstracts the external
compressor's output length.  One paletted frame is appended per loop
iteration (after the pixel flip), modelled as a snapshot of the grid. -/

/-- A 16×16 luminance grid, flattened. -/
abbrev Grid : Type := List ℕ

/-- `img.GrayAt(x, y).Y`. -/
def gridGet (g : Grid) (x y : ℕ) : ℕ :=
  List.getD g (x * 16 + y) 0

/-- `img.SetGray(x, y, v)`. -/
def gridSet (g : Grid) (x y v : ℕ) : Grid :=
  List.set g (x * 16 + y) v

/-- Initial random grid (simulation.go:46-57): each pixel is `0` when
`rng.Intn(3) == 0` and `255` otherwise, in `x`-outer/`y`-inner order. -/
def initGrid (r : RNG) : Grid × RNG :=
  (List.range 256).foldl
    (fun acc _ =>
      let p := acc.2.intn 3
      (acc.1 ++ [if p.1 = 0 then 0 else 255], p.2))
    (([] : List ℕ), r)

/-- A temporal-buffer plane: the grid converted via `float64(g.Y)/256`. -/
def gridPlane (g : Grid) : List ℚ :=
  g.map (fun v => (v : ℚ) / 256)

/-- The full state of the simulation loop. -/
structure SimState where
  img : Grid
  buffer : List (List ℚ)
  mindX : MarkovMind
  mindY : MarkovMind
  rng : RNG
  frames : List Grid
  trace : List (ℕ × ℕ)

/-- One iteration of the simulation loop (simulation.go:61-116): shift the
temporal buffer, take the spectrum through the abstract FFT, quantize via
the (cursor-less) `simBytes` loop, score with the abstract compressor,
step both minds, flip the addressed pixel and append a frame. -/
def simStep (E : ℚ → ℚ) (fftAbs : List (List ℚ) → List ℚ)
    (cl : List ℕ → ℕ) (st : SimState) : SimState :=
  let buffer := gridPlane st.img :: st.buffer.take 7
  let mags := fftAbs buffer
  let state := simBytes mags
  let entropy := 255 * (cl state : ℚ) / (state.length : ℚ)
  let sx := MarkovMind.Step E st.mindX entropy st.rng
  let sy := MarkovMind.Step E st.mindY entropy sx.2.2
  let actionX := sx.2.1
  let actionY := sy.2.1
  let v := gridGet st.img actionX actionY
  let v2 := if v < 128 then 255 else 0
  let img := gridSet st.img actionX actionY v2
  { img := img
    buffer := buffer
    mindX := sx.1
    mindY := sy.1
    rng := sy.2.2
    frames := st.frames ++ [img]
    trace := st.trace ++ [(actionX, actionY)] }

/-- Run `n` iterations of the simulation loop. -/
def simLoop (E : ℚ → ℚ) (fftAbs : List (List ℚ) → List ℚ)
    (cl : List ℕ → ℕ) : ℕ → SimState → SimState
  | 0, st => st
  | n + 1, st => simLoop E fftAbs cl n (simStep E fftAbs cl st)

/-- The whole `Simulation` function: seed grid, two fresh minds
(`Actions = Width = Height = 16`), 1024 iterations. -/
def simulate (E : ℚ → ℚ) (fftAbs : List (List ℚ) → List ℚ)
    (cl : List ℕ → ℕ) (r : RNG) : SimState :=
  let g := initGrid r
  simLoop E fftAbs cl 1024
    { img := g.1
      buffer := List.replicate 8 (List.replicate 256 0)
      mindX := NewMarkovMind 16
      mindY := NewMarkovMind 16
      rng := g.2
      frames := []
      trace := [] }

/-!  ## Auxiliary definitions for the statements of the theorems -/

/-- The value vector `MarkovMind.Step` obtains for the current context:
the table entry when present, otherwise `m.Actions` fresh uniform draws
(markovmind.go:35-41). -/
def lookedUp (m : MarkovMind) (r : RNG) : List ℚ :=
  match tlookup m.Markov m.State with
  | some v => v
  | none => (r.take m.Actions).1

/-- Well-formedness of a `MarkovMind`: a positive action count, every
table entry of length `Actions`, and `Acts` either nil (before the first
step) or of length `Actions`. -/
def MarkovWF (m : MarkovMind) : Prop :=
  0 < m.Actions ∧ (∀ kv ∈ m.Markov, kv.2.length = m.Actions)
    ∧ (m.Acts = [] ∨ m.Acts.length = m.Actions)

/-- Concrete mind used by witnesses: two actions, a previous distribution
`[1/2, 1/2]`, and one stored table entry for the zero context. -/
def mindW : MarkovMind :=
  { Actions := 2
    Acts := [1 / 2, 1 / 2]
    State := (0, 0, 0)
    Markov := [((0, 0, 0), [1 / 3, 2 / 3])] }

/-- Concrete random stream used by witnesses. -/
def rngW : RNG := ⟨[1 / 2], []⟩

/-!  ## Theorems -/

/-- C1: the claim states that for every finite input vector and every
temperature `t > 0`, `softmax` returns a probability vector with every
entry in `(0,1)` and total mass `1`.  The code does not: its second loop
divides the raw temperature-scaled value by the sum of exponentials
instead of the exponential itself, so on input `[0, 0]` at `t = 1` it
returns `[0, 0]` — entries not in `(0,1)` and total mass `0` — for every
model `E` of `math.Exp`. -/
theorem softmax_zero_vector_not_probability (E : ℚ → ℚ) :
    softmax E [0, 0] 1 = [0, 0] ∧ (softmax E [0, 0] 1).sum = 0 := by
  constructor <;> simp [softmax, SConst]

/-- C3: the claim states the entropy-mode score is finite (within
`[0, log2(D·W·H)]`) because a spectrum bin with normalized power exactly
`0` contributes `0` to the entropy sum.  `ESensor.Sense` has no such
guard: a zero bin contributes `0 * log2 0 = 0 * (-∞) = NaN` (magnitudes
`[1, 0]`), and an all-zero spectrum — the very first frame of an
all-black camera image — yields `0/0 = NaN` already at normalization;
either way the returned score is NaN, for every model `L` of `math.Log2`
on positive arguments. -/
theorem esensor_entropy_nan_on_zero_bin (L : ℚ → ℚ) :
    eSenseScore L [1, 0] = GoFloat.nan ∧ eSenseScore L [0, 0] = GoFloat.nan := by
  constructor <;> simp [eSenseScore, goDiv, goLog2, goMul, goAdd, goNeg]

/-- `sampleAux` finds the first index whose cumulative sum exceeds the
draw, shifted by the starting index. -/
theorem sampleAux_eq_findIdx (sel : ℚ) (ns : List ℚ) (s : ℚ) (i : ℕ) :
    sampleAux sel ns s i =
      if (cumFrom s ns).findIdx (fun c => decide (sel < c)) < ns.length
      then some (i + (cumFrom s ns).findIdx (fun c => decide (sel < c)))
      else none := by
  induction ns generalizing s i with
  | nil => simp [sampleAux, cumFrom]
  | cons v rest ih =>
    by_cases h : sel < s + v
    · simp [sampleAux, cumFrom, List.findIdx_cons, h, gt_iff_lt]
    · have hgt : ¬ s + v > sel := h
      simp only [sampleAux, cumFrom, List.findIdx_cons, hgt, if_false,
        decide_eq_true_eq, h, decide_False, Bool.false_eq_true, cond_false]
      rw [ih]
      by_cases hlt : (cumFrom (s + v) rest).findIdx (fun c => decide (sel < c)) < rest.length
      · simp only [hlt, if_true, List.length_cons]
        have : (cumFrom (s + v) rest).findIdx (fun c => decide (sel < c)) + 1
            < rest.length + 1 := by omega
        simp only [this, if_true]
        congr 1
        omega
      · simp only [hlt, if_false, List.length_cons]
        have : ¬ ((cumFrom (s + v) rest).findIdx (fun c => decide (sel < c)) + 1
            < rest.length + 1) := by omega
        simp [this]

/-- C2 (amended): all three sampling loops pick the first index whose
cumulative sum exceeds the draw; when no cumulative sum exceeds the draw,
`KMind.Step` and the three-byte `MarkovMind.Step` fall back to index `0`
(the loop variable's initial value), and the two-byte `MarkovMind.Step`
keeps the previous step's action — not the last index, as the claim
states. -/
theorem sampling_first_crossing_characterization (ns : List ℚ) (sel : ℚ) (prev : ℕ) :
    (sampleIdx ns sel =
      if (cumList ns).findIdx (fun c => decide (sel < c)) < ns.length
      then (cumList ns).findIdx (fun c => decide (sel < c)) else 0)
  ∧ (sampleIdxFrom prev ns sel =
      if (cumList ns).findIdx (fun c => decide (sel < c)) < ns.length
      then (cumList ns).findIdx (fun c => decide (sel < c)) else prev) := by
  have h := sampleAux_eq_findIdx sel ns 0 0
  constructor <;>
    · simp only [sampleIdx, sampleIdxFrom, cumList, h]
      split <;> simp

/-- C2 (counterexample): with normalized vector `[1/4, 1/4]` and draw
`1/2`, every cumulative sum falls short of the draw; the claim's fallback
is the last index `1`, but the samplers return `0`. -/
theorem sampling_fallback_counterexample :
    sampleIdx [1 / 4, 1 / 4] (1 / 2) = 0
  ∧ sampleIdx [1 / 4, 1 / 4] (1 / 2) ≠ 1
  ∧ ((cumList [1 / 4, 1 / 4]).all fun c => decide (c ≤ 1 / 2)) = true := by
  refine ⟨?_, ?_, ?_⟩ <;> norm_num [sampleIdx, sampleAux, cumList, cumFrom]

/-- Indexing the trial list of `candLoop`: the buffer compressed for the
`i`-th candidate is the one produced by all previous candidates' shifts. -/
theorem candLoop_trials (cs : List ℕ) (buf : List ℕ) (i : ℕ) :
    (candLoop buf cs).1[i]? =
      if i < cs.length
      then some ((cs.take (i + 1)).foldl (fun b a => trialShift a b) buf)
      else none := by
  induction cs generalizing buf i with
  | nil => simp [candLoop]
  | cons a rest ih =>
    cases i with
    | zero => simp [candLoop]
    | succ n =>
      simp only [candLoop, List.getElem?_cons_succ, ih, List.length_cons,
        Nat.add_lt_add_iff_right, List.take_succ_cons, List.foldl_cons]

/-- The buffer left after `candLoop` is the fold of all candidate shifts. -/
theorem candLoop_final (cs : List ℕ) (buf : List ℕ) :
    (candLoop buf cs).2 = cs.foldl (fun b a => trialShift a b) buf := by
  induction cs generalizing buf with
  | nil => simp [candLoop]
  | cons a rest ih => simp [candLoop, ih]

/-- C4 (amended): in `KMind.Step`'s candidate loop each candidate `a`
prepends byte `a`, shifting the bytes at positions `0 … Size-3` right by
one; the byte at position `Size-2` is dropped and the final byte at
position `Size-1` stays in place (it is the claim's "dropping the
oldest" that fails: the oldest byte is never dropped).  The buffer is not
restored between candidates: the buffer compressed for candidate `i` is
the original buffer transformed by the shifts of candidates `0 … i`, and
the loop leaves the fully mutated buffer behind. -/
theorem kmind_candidate_trials_accumulate (n : ℕ) (buf : List ℕ) (i : ℕ) :
    ((candTrials n buf).1[i]? =
      if i < n
      then some ((List.range (i + 1)).foldl (fun b a => trialShift a b) buf)
      else none)
  ∧ (candTrials n buf).2 = (List.range n).foldl (fun b a => trialShift a b) buf
  ∧ (∀ a, 2 ≤ buf.length →
      trialShift a buf = a :: (buf.take (buf.length - 2) ++ buf.drop (buf.length - 1))) := by
  refine ⟨?_, candLoop_final _ _, fun a h => by simp [trialShift]; omega⟩
  rw [candTrials, candLoop_trials, List.length_range]
  by_cases hi : i < n
  · rw [if_pos hi, if_pos hi, List.take_range, Nat.min_eq_left (by omega)]
  · rw [if_neg hi, if_neg hi]

/-- Witness for C4: the shift equation evaluated on a concrete
three-byte buffer. -/
theorem kmind_candidate_trials_witness :
    trialShift 9 [1, 2, 3] = 9 :: ([1, 2, 3].take 1 ++ [1, 2, 3].drop 2) :=
  (kmind_candidate_trials_accumulate 0 [1, 2, 3] 0).2.2 9 (by norm_num)

/-- C4 (counterexample): the claim describes each trial as "shifting
every other byte right by one, dropping the oldest"; on the 1024-byte
buffer `[0, …, 1023]` the code's shift keeps the oldest byte `1023` in
place and drops `1022` instead, so it differs from the claim's
prepend-and-drop-last operation. -/
theorem kmind_shift_claim_counterexample :
    trialShift 5 (List.range 1024) ≠ trialShiftSpec 5 (List.range 1024) := by
  have e1 : trialShift 5 (List.range 1024) = 5 :: (List.range 1022 ++ [1023]) := by
    rw [trialShift, if_neg (by rw [List.length_range]; omega)]
    rw [List.length_range]
    rw [show (1024 - 2 : ℕ) = 1022 from rfl, show (1024 - 1 : ℕ) = 1023 from rfl]
    nth_rewrite 2 [List.range_succ]
    rw [List.drop_left' (by rw [List.length_range])]
    rw [List.take_range, Nat.min_eq_left (by omega)]
  have e2 : trialShiftSpec 5 (List.range 1024) = 5 :: List.range 1023 := by
    rw [trialShiftSpec, List.range_succ, List.dropLast_concat]
  rw [e1, e2]
  nth_rewrite 2 [List.range_succ]
  intro h
  have h2 := (List.cons_eq_cons.mp h).2
  have h3 := List.append_inj_right h2 rfl
  simp at h3

/-- Sequential cursor writes into a zero-filled suffix lay the bytes down
one after another. -/
theorem writeAll_fill (ws : List ℕ) (done : List ℕ) (k : ℕ) :
    writeAll ws (done ++ List.replicate (ws.length + k) 0, done.length)
      = (done ++ ws ++ List.replicate k 0, done.length + ws.length) := by
  induction ws generalizing done with
  | nil => simp [writeAll]
  | cons b rest ih =>
    have hrep : List.replicate ((b :: rest).length + k) (0 : ℕ)
        = 0 :: List.replicate (rest.length + k) 0 := by
      rw [List.length_cons, show rest.length + 1 + k = (rest.length + k) + 1 by omega,
        List.replicate_succ]
    rw [writeAll, List.foldl_cons, hrep]
    have hset : (done ++ 0 :: List.replicate (rest.length + k) 0).set done.length b
        = (done ++ [b]) ++ List.replicate (rest.length + k) 0 := by
      rw [List.set_append_right _ _ (le_refl _), Nat.sub_self, List.set_cons_zero]
      simp
    have := ih (done ++ [b])
    rw [writeAll] at this
    simp only [hset, List.length_append, List.length_cons, List.length_nil, Nat.zero_add] at this ⊢
    rw [this]
    simp [List.append_assoc]
    omega

/-- Cursor-driven quantization writes exactly the concatenation of all
emitted bytes. -/
theorem quantFold_fill {α : Type} (f : α → List ℕ) (xs : List α) (done : List ℕ) :
    xs.foldl (fun a x => writeAll (f x) a)
        (done ++ List.replicate (xs.flatMap f).length 0, done.length)
      = (done ++ xs.flatMap f, done.length + (xs.flatMap f).length) := by
  induction xs generalizing done with
  | nil => simp
  | cons x rest ih =>
    rw [List.foldl_cons, List.flatMap_cons, List.length_append, writeAll_fill]
    have := ih (done ++ f x)
    simp only [List.length_append] at this
    rw [← List.append_assoc, ← Nat.add_assoc]
    exact this

/-- `quantFold` over the exact output length is flat concatenation. -/
theorem quantFold_eq {α : Type} (f : α → List ℕ) (xs : List α) :
    quantFold f xs (xs.flatMap f).length = xs.flatMap f := by
  have h := quantFold_fill f xs []
  simp only [List.nil_append, List.length_nil, Nat.zero_add] at h
  rw [quantFold, h]

/-- Emitting one byte per element concatenates to the map. -/
theorem flatMap_one {α : Type} (g : α → ℕ) (xs : List α) :
    (xs.flatMap fun x => [g x]) = xs.map g := by
  induction xs with
  | nil => simp
  | cons x rest ih => simp [ih]

/-- Emitting two bytes per element yields a sequence of twice the length. -/
theorem flatMap_two_length {α : Type} (g h : α → ℕ) (xs : List α) :
    (xs.flatMap fun x => [g x, h x]).length = 2 * xs.length := by
  induction xs with
  | nil => simp
  | cons x rest ih => simp [ih]; omega

/-- C5: in compression mode the byte sequence really has one magnitude
byte per spectrum element in `(depth, x, y)` order (two bytes per element
in the magnitude+phase variant) with value `byte(255·m/Σm)`, and the
score is `255·compressed/len` — for `KSensor.Sense`.  But the copy of the
quantization loop inside `Simulation` (simulation.go:90-101) never
increments `index`: on normalized magnitudes `[1/2, 1/2]` it emits
`[127, 0]` (every write lands on position 0) instead of the claimed
`[127, 127]`, so the claim fails for the Simulation sensing step. -/
theorem ksensor_layout_and_simulation_bug :
    (∀ mags : List ℚ, kSensorBytes mags
        = mags.map (fun m => byteOf (255 * (m / mags.sum))))
  ∧ (∀ vals : List (ℚ × ℚ), kSensor2Bytes vals
        = vals.flatMap (fun v => [byteOf (255 * v.1 / (vals.map Prod.fst).sum),
                                  byteOf (255 * v.2 / (vals.map Prod.snd).sum)]))
  ∧ (∀ mags : List ℚ, (kSensorBytes mags).length = mags.length)
  ∧ (∀ vals : List (ℚ × ℚ), (kSensor2Bytes vals).length = 2 * vals.length)
  ∧ (∀ (cl : List ℕ → ℕ) (mags : List ℚ), kSenseScore cl mags
        = 255 * (cl (kSensorBytes mags) : ℚ) / (mags.length : ℚ))
  ∧ simBytes [1, 1] = [127, 0]
  ∧ simBytes [1, 1] ≠ [1, 1].map (fun m => byteOf (255 * (m / ([1, 1] : List ℚ).sum))) := by
  have hone : ∀ mags : List ℚ, kSensorBytes mags
      = mags.map (fun m => byteOf (255 * (m / mags.sum))) := by
    intro mags
    rw [kSensorBytes,
      show mags.length = (mags.flatMap fun m => [byteOf (255 * (m / mags.sum))]).length by
        rw [flatMap_one]; simp,
      quantFold_eq, flatMap_one]
  have htwo : ∀ vals : List (ℚ × ℚ), kSensor2Bytes vals
      = vals.flatMap (fun v => [byteOf (255 * v.1 / (vals.map Prod.fst).sum),
                                byteOf (255 * v.2 / (vals.map Prod.snd).sum)]) := by
    intro vals
    rw [kSensor2Bytes,
      show 2 * vals.length = (vals.flatMap fun v =>
          [byteOf (255 * v.1 / (vals.map Prod.fst).sum),
           byteOf (255 * v.2 / (vals.map Prod.snd).sum)]).length by
        rw [flatMap_two_length],
      quantFold_eq]
  have hb : byteOf ((255 : ℚ) / 2) = 127 := by
    norm_num [byteOf]
    decide
  have hsim : simBytes [1, 1] = [127, 0] := by
    norm_num [simBytes]
    rw [hb]
    decide
  have hmap : ([1, 1] : List ℚ).map
      (fun m => byteOf (255 * (m / ([1, 1] : List ℚ).sum))) = [127, 127] := by
    norm_num [byteOf]
    decide
  refine ⟨hone, htwo, ?_, ?_, ?_, hsim, ?_⟩
  · intro mags; rw [hone]; simp
  · intro vals; rw [htwo, flatMap_two_length]
  · intro cl mags
    rw [kSenseScore, hone]
    simp
  · rw [hsim, hmap]
    decide

/-- Looking up a key right after storing it yields the stored value. -/
theorem tlookup_tupdate {κ β : Type} [DecidableEq κ]
    (t : List (κ × β)) (k : κ) (v : β) :
    tlookup (tupdate t k v) k = some v := by
  induction t with
  | nil => simp [tupdate, tlookup]
  | cons kv rest ih =>
    by_cases h : kv.1 = k
    · simp [tupdate, h, tlookup]
    · simp [tupdate, h, tlookup, ih]

/-- Division of every entry by a constant divides the total. -/
theorem sum_map_div (v : List ℚ) (s : ℚ) :
    (v.map (fun x => x / s)).sum = v.sum / s := by
  induction v with
  | nil => simp
  | cons x rest ih => simp [ih, add_div]

/-- The renormalisation loop really makes the entries sum to 1, provided
the pre-normalisation total is nonzero. -/
theorem normalizeQ_sum (v : List ℚ) (h : v.sum ≠ 0) :
    (normalizeQ v).sum = 1 := by
  rw [normalizeQ, sum_map_div, div_self h]

/-- C6: on every `MarkovMind.Step` of the three-byte variant the vector
stored under the current (pre-advance) context is the looked-up vector
updated by `value[a] += 1 - previous[a]` and renormalised, where
`previous` is `m.Acts` — the vector the previous step looked up, updated
in place, and stored (Go slice aliasing makes the previous step's lookup
result hold exactly these values when this step reads it); on the very
first step (`m.Acts` nil) the update and renormalisation are skipped.
The new `m.Acts` is the stored vector, the renormalised entries sum to 1
whenever the updated total is nonzero, and the step's action does not
influence the update. -/
theorem markov_update_stored (E : ℚ → ℚ) (m : MarkovMind) (e : ℚ) (r : RNG) :
    (tlookup (MarkovMind.Step E m e r).1.Markov m.State
       = some (if m.Acts.isEmpty then lookedUp m r
               else normalizeQ (List.zipWith (fun v p => v + 1 - p) (lookedUp m r) m.Acts)))
  ∧ ((MarkovMind.Step E m e r).1.Acts
       = if m.Acts.isEmpty then lookedUp m r
         else normalizeQ (List.zipWith (fun v p => v + 1 - p) (lookedUp m r) m.Acts))
  ∧ (¬ m.Acts.isEmpty →
       (List.zipWith (fun v p => v + 1 - p) (lookedUp m r) m.Acts).sum ≠ 0 →
       (normalizeQ (List.zipWith (fun v p => v + 1 - p) (lookedUp m r) m.Acts)).sum = 1) :=
  by
  refine ⟨?_, ?_, fun _ h => normalizeQ_sum _ h⟩
  · simp only [MarkovMind.Step, lookedUp]
    cases htl : tlookup m.Markov m.State
    · simp [htl, tlookup_tupdate]
    · simp [htl, tlookup_tupdate]
  · rfl

/-- Witness for C6: at a concrete mind (previous distribution
`[1/2, 1/2]`, stored entry `[1/3, 2/3]` for the current context) the
update hypotheses hold and the stored, renormalised vector sums to 1. -/
theorem markov_update_stored_witness :
    ¬ mindW.Acts.isEmpty = true
  ∧ (List.zipWith (fun v p => v + 1 - p) (lookedUp mindW rngW) mindW.Acts).sum ≠ 0
  ∧ (normalizeQ (List.zipWith (fun v p => v + 1 - p) (lookedUp mindW rngW) mindW.Acts)).sum
      = 1 := by
  have h1 : ¬ mindW.Acts.isEmpty = true := by simp [mindW]
  have h2 : (List.zipWith (fun v p => v + 1 - p) (lookedUp mindW rngW) mindW.Acts).sum
      ≠ 0 := by
    norm_num [mindW, rngW, lookedUp, tlookup]
  exact ⟨h1, h2, (markov_update_stored (fun _ => 1) mindW 0 rngW).2.2 h1 h2⟩

/-- Each simulation iteration appends exactly one frame. -/
theorem simLoop_frames_length (E : ℚ → ℚ) (fftAbs : List (List ℚ) → List ℚ)
    (cl : List ℕ → ℕ) (n : ℕ) (st : SimState) :
    (simLoop E fftAbs cl n st).frames.length = st.frames.length + n := by
  induction n generalizing st with
  | zero => rw [simLoop]; omega
  | succ k ih =>
    rw [simLoop, ih]
    simp only [simStep, List.length_append, List.length_cons, List.length_nil]
    omega

/-- C7: the simulation harness is a pure function of its random stream
(every other input — FFT, compressor — is a fixed deterministic
collaborator), so two runs from the same seed stream are bit-identical,
in every component including the final grid; and the animation holds
exactly 1024 frames, one snapshot per iteration. -/
theorem simulation_reproducible_1024_frames (E : ℚ → ℚ)
    (fftAbs : List (List ℚ) → List ℚ) (cl : List ℕ → ℕ) (r1 r2 : RNG)
    (h : r1 = r2) :
    (simulate E fftAbs cl r1).frames.length = 1024
  ∧ simulate E fftAbs cl r1 = simulate E fftAbs cl r2 := by
  subst h
  refine ⟨?_, rfl⟩
  rw [simulate, simLoop_frames_length]
  rfl

/-- Witness for C7: a concrete run (trivial collaborators, empty seed
stream) compared with itself. -/
theorem simulation_reproducible_witness :
    (simulate (fun _ => 1) (fun _ => [1]) (fun _ => 1) ⟨[], []⟩).frames.length = 1024
  ∧ simulate (fun _ => 1) (fun _ => [1]) (fun _ => 1) ⟨[], []⟩
      = simulate (fun _ => 1) (fun _ => [1]) (fun _ => 1) ⟨[], []⟩ :=
  simulation_reproducible_1024_frames _ _ _ _ _ rfl

/-- Keys after an insert-or-update: the stored key and the old keys. -/
theorem mem_keys_tupdate {κ β : Type} [DecidableEq κ]
    (t : List (κ × β)) (k : κ) (v : β) (k' : κ) :
    k' ∈ (tupdate t k v).map Prod.fst ↔ k' = k ∨ k' ∈ t.map Prod.fst := by
  induction t with
  | nil => simp [tupdate]
  | cons kv rest ih =>
    by_cases h : kv.1 = k
    · simp [tupdate, h]
    · simp [tupdate, h, ih]
      tauto

/-- Insert-or-update preserves distinctness of the keys. -/
theorem nodup_keys_tupdate {κ β : Type} [DecidableEq κ]
    (t : List (κ × β)) (k : κ) (v : β) (h : (t.map Prod.fst).Nodup) :
    ((tupdate t k v).map Prod.fst).Nodup := by
  induction t with
  | nil => simp [tupdate]
  | cons kv rest ih =>
    rw [List.map_cons, List.nodup_cons] at h
    by_cases hk : kv.1 = k
    · rw [tupdate, if_pos hk, List.map_cons, List.nodup_cons]
      exact ⟨hk ▸ h.1, h.2⟩
    · rw [tupdate, if_neg hk, List.map_cons, List.nodup_cons]
      refine ⟨?_, ih h.2⟩
      rw [mem_keys_tupdate]
      rintro (hc | hc)
      · exact hk hc
      · exact h.1 hc

/-- One step only touches the table through an insert-or-update at the
current context, so every old key survives. -/
theorem step_keys_mem (E : ℚ → ℚ) (m : MarkovMind) (e : ℚ) (r : RNG) (k' : Ctx3) :
    k' ∈ (MarkovMind.Step E m e r).1.Markov.map Prod.fst
      ↔ k' = m.State ∨ k' ∈ m.Markov.map Prod.fst := by
  simp only [MarkovMind.Step]
  exact mem_keys_tupdate _ _ _ _

/-- One step preserves distinctness of the table keys. -/
theorem step_keys_nodup (E : ℚ → ℚ) (m : MarkovMind) (e : ℚ) (r : RNG)
    (h : (m.Markov.map Prod.fst).Nodup) :
    ((MarkovMind.Step E m e r).1.Markov.map Prod.fst).Nodup := by
  simp only [MarkovMind.Step]
  exact nodup_keys_tupdate _ _ _ h

/-- A whole run preserves distinctness of the table keys. -/
theorem runSteps_keys_nodup (E : ℚ → ℚ) (es : List ℚ) (m : MarkovMind) (r : RNG)
    (h : (m.Markov.map Prod.fst).Nodup) :
    ((runSteps E m es r).1.Markov.map Prod.fst).Nodup := by
  induction es generalizing m r with
  | nil => exact h
  | cons e rest ih =>
    rw [runSteps, List.foldl_cons]
    exact ih _ _ (step_keys_nodup E m e r h)

/-- A whole run never drops a table key. -/
theorem runSteps_keys_subset (E : ℚ → ℚ) (es : List ℚ) (m : MarkovMind) (r : RNG)
    (k : Ctx3) (hk : k ∈ m.Markov.map Prod.fst) :
    k ∈ (runSteps E m es r).1.Markov.map Prod.fst := by
  induction es generalizing m r with
  | nil => exact hk
  | cons e rest ih =>
    rw [runSteps, List.foldl_cons]
    exact ih _ _ ((step_keys_mem E m e r k).mpr (Or.inr hk))

/-- C8: for a run of any length from a fresh mind, the action-value table
holds at most `256^3` entries (the context key space is finite), and
entries are never evicted: every key present after `es` steps is still
present after the longer run `es ++ es'`. -/
theorem markov_table_bounded_monotone (E : ℚ → ℚ) (n : ℕ) (es es' : List ℚ) (r : RNG) :
    (runSteps E (NewMarkovMind n) es r).1.Markov.length ≤ 256 ^ 3
  ∧ (((runSteps E (NewMarkovMind n) es r).1.Markov.map Prod.fst).all
      (fun k => decide
        (k ∈ (runSteps E (NewMarkovMind n) (es ++ es') r).1.Markov.map Prod.fst)))
      = true := by
  constructor
  · have hnd := runSteps_keys_nodup E es (NewMarkovMind n) r (by simp [NewMarkovMind])
    have hle := hnd.length_le_card
    rw [List.length_map] at hle
    have hcard : Fintype.card Ctx3 = 256 ^ 3 := by
      rw [Fintype.card_prod, Fintype.card_prod, Fintype.card_fin]
      norm_num
    rw [hcard] at hle
    exact hle
  · rw [List.all_eq_true]
    intro k hk
    rw [decide_eq_true_eq]
    rw [runSteps, List.foldl_append]
    exact runSteps_keys_subset E es' _ _ k hk

/-- One step of the three-byte mind shifts the context left and appends
the quantized novelty byte (markovmind.go:67). -/
theorem step_state (E : ℚ → ℚ) (m : MarkovMind) (e : ℚ) (r : RNG) :
    (MarkovMind.Step E m e r).1.State
      = (m.State.2.1, m.State.2.2, quantByte e) := rfl

/-- One step of the two-byte mind shifts the context left and appends
the quantized novelty byte (main.go:234). -/
theorem step2_state (E : ℚ → ℚ) (m : MarkovMind2) (e : ℚ) (r : RNG) :
    (MarkovMind2.Step E m e r).1.State = (m.State.2, quantByte e) := rfl

/-- C9: after any run whose last three (respectively two) novelty inputs
are `a, b, c` (résp. `a2, b2`), the context of the three-byte mind is
exactly the last three quantized novelty bytes and the context of the
two-byte mind is exactly the last two — regardless of the starting mind
and of the random stream. -/
theorem markov_context_window (E : ℚ → ℚ) (m : MarkovMind) (m2 : MarkovMind2)
    (es es2 : List ℚ) (a b c a2 b2 : ℚ) (r r2 : RNG) :
    (runSteps E m (es ++ [a, b, c]) r).1.State
      = (quantByte a, quantByte b, quantByte c)
  ∧ (runSteps2 E m2 (es2 ++ [a2, b2]) r2).1.State = (quantByte a2, quantByte b2) := by
  constructor
  · rw [runSteps, List.foldl_append]
    rfl
  · rw [runSteps2, List.foldl_append]
    rfl

/-- `softmax` keeps the vector length. -/
theorem softmax_length (E : ℚ → ℚ) (v : List ℚ) (t : ℚ) :
    (softmax E v t).length = v.length := by
  simp [softmax]

/-- The sampling walk never returns an index beyond the vector. -/
theorem sampleAux_lt (sel : ℚ) (ns : List ℚ) (s : ℚ) (i j : ℕ)
    (h : sampleAux sel ns s i = some j) : j < i + ns.length := by
  induction ns generalizing s i with
  | nil => simp [sampleAux] at h
  | cons v rest ih =>
    rw [sampleAux] at h
    split at h
    · cases h
      simp
    · have := ih (s + v) (i + 1) h
      simp only [List.length_cons]
      omega

/-- The sampler stays inside a nonempty vector. -/
theorem sampleIdx_lt (ns : List ℚ) (sel : ℚ) (h : 0 < ns.length) :
    sampleIdx ns sel < ns.length := by
  rw [sampleIdx]
  cases haux : sampleAux sel ns 0 0 with
  | none => simpa using h
  | some j =>
    have := sampleAux_lt sel ns 0 0 j haux
    simpa using this

/-- `n` draws produce `n` values. -/
theorem RNG.take_length (r : RNG) (n : ℕ) : (RNG.take r n).1.length = n := by
  induction n generalizing r with
  | zero => rfl
  | succ k ih => simp [RNG.take, ih]

/-- A successful lookup is a member of the table. -/
theorem tlookup_mem {κ β : Type} [DecidableEq κ]
    (t : List (κ × β)) (k : κ) (v : β) (h : tlookup t k = some v) : (k, v) ∈ t := by
  induction t with
  | nil => simp [tlookup] at h
  | cons kv rest ih =>
    rw [tlookup] at h
    by_cases hk : kv.1 = k
    · rw [if_pos hk] at h
      cases h
      have : (k, kv.2) = kv := by
        cases kv
        simp only [Prod.mk.injEq]
        simp only at hk
        exact ⟨hk.symm, trivial⟩
      rw [this]
      exact List.mem_cons_self _ _
    · rw [if_neg hk] at h
      exact List.mem_cons_of_mem _ (ih h)

/-- Under well-formedness the vector a step works on has length
`Actions`, whether looked up or freshly drawn. -/
theorem lookedUp_length (m : MarkovMind) (r : RNG) (h : MarkovWF m) :
    (lookedUp m r).length = m.Actions := by
  rw [lookedUp]
  cases htl : tlookup m.Markov m.State with
  | none => exact RNG.take_length r m.Actions
  | some v => exact h.2.1 _ (tlookup_mem _ _ _ htl)

/-- Entries of an updated table come from the old table or are the
stored pair. -/
theorem mem_tupdate {κ β : Type} [DecidableEq κ]
    (t : List (κ × β)) (k : κ) (v : β) (kv : κ × β) (h : kv ∈ tupdate t k v) :
    kv ∈ t ∨ kv = (k, v) := by
  induction t with
  | nil =>
    rw [tupdate] at h
    right
    simpa using h
  | cons kv0 rest ih =>
    rw [tupdate] at h
    by_cases hk : kv0.1 = k
    · rw [if_pos hk] at h
      rcases List.mem_cons.mp h with h2 | h2
      · right; exact h2
      · left; exact List.mem_cons_of_mem _ h2
    · rw [if_neg hk] at h
      rcases List.mem_cons.mp h with h2 | h2
      · left; rw [h2]; exact List.mem_cons_self _ _
      · rcases ih h2 with h3 | h3
        · left; exact List.mem_cons_of_mem _ h3
        · right; exact h3

/-- The vector a step stores has length `Actions`. -/
theorem step_stored_length (E : ℚ → ℚ) (m : MarkovMind) (e : ℚ) (r : RNG)
    (h : MarkovWF m) :
    (MarkovMind.Step E m e r).1.Acts.length = m.Actions := by
  rw [(markov_update_stored E m e r).2.1]
  by_cases he : m.Acts.isEmpty
  · rw [if_pos he]
    exact lookedUp_length m r h
  · rw [if_neg he]
    have hacts : m.Acts.length = m.Actions := by
      rcases h.2.2 with h0 | h0
      · rw [h0] at he
        simp at he
      · exact h0
    simp [normalizeQ, lookedUp_length m r h, hacts]

/-- One step keeps the mind well-formed and returns an action below
`Actions`. -/
theorem step_act_lt_and_WF (E : ℚ → ℚ) (m : MarkovMind) (e : ℚ) (r : RNG)
    (h : MarkovWF m) :
    (MarkovMind.Step E m e r).2.1 < m.Actions
  ∧ MarkovWF (MarkovMind.Step E m e r).1 := by
  have hlen : (lookedUp m r).length = m.Actions := lookedUp_length m r h
  constructor
  · have hact : (MarkovMind.Step E m e r).2.1
        = sampleIdx (softmax E (lookedUp m r) 1) ((match tlookup m.Markov m.State with
            | some _ => r
            | none => (r.take m.Actions).2).float).1 := rfl
    rw [hact]
    have := sampleIdx_lt (softmax E (lookedUp m r) 1)
      ((match tlookup m.Markov m.State with
        | some _ => r
        | none => (r.take m.Actions).2).float).1
      (by rw [softmax_length, hlen]; exact h.1)
    rwa [softmax_length, hlen] at this
  · refine ⟨?_, ?_, ?_⟩
    · exact h.1
    · intro kv hkv
      have hm : (MarkovMind.Step E m e r).1.Markov
          = tupdate m.Markov m.State (MarkovMind.Step E m e r).1.Acts := by
        rfl
      rw [hm] at hkv
      rcases mem_tupdate _ _ _ _ hkv with h2 | h2
      · exact h.2.1 _ h2
      · rw [h2]
        exact step_stored_length E m e r h
    · right
      exact step_stored_length E m e r h

/-- The simulation loop preserves well-formedness of both minds and keeps
every traced pixel address inside the 16×16 grid. -/
theorem simLoop_trace_bounded (E : ℚ → ℚ) (fftAbs : List (List ℚ) → List ℚ)
    (cl : List ℕ → ℕ) (n : ℕ) (st : SimState)
    (hx : MarkovWF st.mindX) (hx16 : st.mindX.Actions = 16)
    (hy : MarkovWF st.mindY) (hy16 : st.mindY.Actions = 16)
    (ht : st.trace.all (fun p => decide (p.1 < 16) && decide (p.2 < 16)) = true) :
    (simLoop E fftAbs cl n st).trace.all
      (fun p => decide (p.1 < 16) && decide (p.2 < 16)) = true := by
  induction n generalizing st with
  | zero => exact ht
  | succ k ih =>
    rw [simLoop]
    apply ih
    · exact (step_act_lt_and_WF E st.mindX _ st.rng hx).2
    · exact hx16
    · exact (step_act_lt_and_WF E st.mindY _ _ hy).2
    · exact hy16
    · have hax : (MarkovMind.Step E st.mindX
          (255 * (cl (simBytes (fftAbs (gridPlane st.img :: st.buffer.take 7))) : ℚ)
            / ((simBytes (fftAbs (gridPlane st.img :: st.buffer.take 7))).length : ℚ))
          st.rng).2.1 < 16 := by
        rw [← hx16]
        exact (step_act_lt_and_WF E st.mindX _ st.rng hx).1
      have hay : (MarkovMind.Step E st.mindY
          (255 * (cl (simBytes (fftAbs (gridPlane st.img :: st.buffer.take 7))) : ℚ)
            / ((simBytes (fftAbs (gridPlane st.img :: st.buffer.take 7))).length : ℚ))
          (MarkovMind.Step E st.mindX
            (255 * (cl (simBytes (fftAbs (gridPlane st.img :: st.buffer.take 7))) : ℚ)
              / ((simBytes (fftAbs (gridPlane st.img :: st.buffer.take 7))).length : ℚ))
            st.rng).2.2).2.1 < 16 := by
        rw [← hy16]
        exact (step_act_lt_and_WF E st.mindY _ _ hy).1
      show (st.trace ++ [_]).all _ = true
      rw [List.all_append, ht]
      simp only [List.all_cons, List.all_nil, Bool.and_true, Bool.true_and,
        Bool.and_eq_true, decide_eq_true_eq]
      exact ⟨hax, hay⟩

/-- C10: every `MarkovMind.Step` on a well-formed mind with `Actions = n
> 0` returns an action index in `[0, n)` and keeps the mind well-formed;
consequently every pixel address `(actionX, actionY)` the simulation
harness reads and writes lies inside its 16×16 grid. -/
theorem markov_action_in_range :
    (∀ (E : ℚ → ℚ) (m : MarkovMind) (e : ℚ) (r : RNG), MarkovWF m →
       (MarkovMind.Step E m e r).2.1 < m.Actions
         ∧ MarkovWF (MarkovMind.Step E m e r).1)
  ∧ (∀ (E : ℚ → ℚ) (fftAbs : List (List ℚ) → List ℚ) (cl : List ℕ → ℕ) (r : RNG),
       ((simulate E fftAbs cl r).trace.all
         (fun p => decide (p.1 < 16) && decide (p.2 < 16))) = true) := by
  refine ⟨fun E m e r h => step_act_lt_and_WF E m e r h, ?_⟩
  intro E fftAbs cl r
  rw [simulate]
  apply simLoop_trace_bounded
  · exact ⟨by norm_num [NewMarkovMind], by simp [NewMarkovMind], Or.inl rfl⟩
  · rfl
  · exact ⟨by norm_num [NewMarkovMind], by simp [NewMarkovMind], Or.inl rfl⟩
  · rfl
  · rfl

/-- Witness for C10: a concrete well-formed two-action mind steps to an
action index below 2 and stays well-formed. -/
theorem markov_action_in_range_witness :
    (MarkovMind.Step (fun _ => 1) mindW 0 rngW).2.1 < mindW.Actions
  ∧ MarkovWF (MarkovMind.Step (fun _ => 1) mindW 0 rngW).1 :=
  markov_action_in_range.1 (fun _ => 1) mindW 0 rngW
    ⟨by norm_num [mindW],
     by intro kv hkv; simp [mindW] at hkv; simp [hkv, mindW],
     Or.inr (by norm_num [mindW])⟩

end AS
